import Mathlib

/-!
Verification of the st-penpals keyword/age matching, dedup, sort and pagination core.

Shallow embedding of the algorithmic core of the repository:

* `src/streamlit_app.py` — `has_keyword_match`, `sort_results` (title mode),
  `filter_posts_by_recency`, the pagination clamp of `display_subreddit_results`;
* `src/utils/text_processing.py` — the keyword regex construction shared with
  `highlight_keywords_in_text`;
* `src/utils/data_loader.py` — `filter_deleted_and_deduplicate_users`;
* `src/utils/fetch_penpals.py` — the pagination loop of `fetch_penpals_posts`.

Strings are modelled as Lean `String`/`List Char`; the Python regex
`\w` class is modelled for ASCII text as alphanumeric-or-underscore, matching
the texts exercised by the specification. Pandas `sort_values` uses the
default quicksort, which pandas documents as not stable, so for the
deduplicator it is embedded relationally (any descending permutation of the
rows); the title sort uses an insertion sort as a representative
implementation, and only tie-order-independent properties are proved about
it. Timestamps are integers ordered like the fixed-format `created_time`
strings they encode.
-/

/-! ## Keyword matching (src/streamlit_app.py lines 445-530, text_processing.py lines 12-73) -/

/-- The Python regex `\w` class, restricted to ASCII text: letters, digits, underscore. -/
def isWordChar (c : Char) : Bool := c.isAlphanum || c == '_'

/-- Whether position `p` of `t` holds a word character (out of range counts as non-word). -/
def wordAt (t : List Char) (p : Nat) : Bool :=
  decide (p < t.length) && isWordChar (t.getD p ' ')

/-- The regex word-boundary test `\b` between positions `p - 1` and `p` of `t`. -/
def boundaryB (t : List Char) (p : Nat) : Bool :=
  (if p == 0 then false else wordAt t (p - 1)) != wordAt t p

/-- The optional suffix alternatives of the long-keyword pattern
`(?:ing|ed|er|s|ly)?` together with the empty choice. -/
def suffixOpts : List (List Char) :=
  ["ing", "ed", "er", "s", "ly", ""].map String.data

/-- One candidate position of the pattern
`(?<!\w)word(?:ing|ed|er|s|ly)?\b` used for words of length at least 4:
negative lookbehind at `i - 1`, then the word, an optional suffix and a
word boundary. -/
def matchAtLong (w t : List Char) (i : Nat) : Bool :=
  (decide (i = 0) || !isWordChar (t.getD (i - 1) ' ')) &&
  suffixOpts.any (fun suf =>
    (w ++ suf).isPrefixOf (t.drop i) && boundaryB t (i + w.length + suf.length))

/-- One candidate position of the pattern `(?<!\w)word(?!\w)` used for words of
length below 4: negative lookbehind, the word, negative lookahead. -/
def matchAtShort (w t : List Char) (i : Nat) : Bool :=
  (decide (i = 0) || !isWordChar (t.getD (i - 1) ' ')) &&
  w.isPrefixOf (t.drop i) &&
  !wordAt t (i + w.length)

/-- `re.search(pattern, text, flags=re.IGNORECASE)` for the keyword patterns of
`has_keyword_match` and `highlight_keywords_in_text`: the text is lowercased
(the keyword already is) and some start position must match. -/
def kwRegexMatch (w text : List Char) : Bool :=
  let t := text.map Char.toLower
  (List.range (t.length + 1)).any (fun i =>
    if 4 ≤ w.length then matchAtLong w t i else matchAtShort w t i)

/-- The stop-word set of `has_keyword_match` and `highlight_keywords_in_text`. -/
def stopWords : List (List Char) :=
  ["and", "or", "but", "in", "on", "at", "to", "for", "of", "with", "by",
   "is", "are", "was", "were", "be", "a", "an", "this", "that", "it", "he", "she"].map
    String.data

/-- Python `str.strip()`: remove leading and trailing whitespace. -/
def pyStrip (s : List Char) : List Char :=
  ((s.dropWhile Char.isWhitespace).reverse.dropWhile Char.isWhitespace).reverse

/-- Python `str.lower()` for ASCII text. -/
def pyLower (s : List Char) : List Char := s.map Char.toLower

/-- Helper for `pySplit`, accumulating the current word in reverse. -/
def pySplitGo : List Char → List Char → List (List Char)
  | [], acc => if acc.isEmpty then [] else [acc.reverse]
  | c :: cs, acc =>
    if c.isWhitespace then
      if acc.isEmpty then pySplitGo cs [] else acc.reverse :: pySplitGo cs []
    else pySplitGo cs (c :: acc)

/-- Python `str.split()`: split on whitespace runs, discarding empty pieces. -/
def pySplit (s : List Char) : List (List Char) := pySplitGo s []

/-- Accumulate the tokens one keyword contributes: the stripped lowercased
keyword when its length is at least 2, plus each of its whitespace-separated
words of length at least 2. -/
def addKeywordTokens (acc : List (List Char)) (kw : List Char) : List (List Char) :=
  let k := pyStrip kw
  if 2 ≤ k.length then
    acc ++ [pyLower k] ++ (pySplit (pyLower k)).filter (fun w => decide (2 ≤ w.length))
  else acc

/-- The candidate word list for free-text keywords: tokens with the stop words
(and words shorter than 2) removed, as in the `words_to_highlight` set. -/
def buildRegularWords (keywords : List (List Char)) : List (List Char) :=
  (keywords.foldl addKeywordTokens []).filter
    (fun w => !(stopWords.contains w) && decide (2 ≤ w.length))

/-- The candidate word list for age keywords (`age_words_to_highlight`):
no stop-word removal is applied in this branch of `has_keyword_match`. -/
def buildAgeWords (keywords : List (List Char)) : List (List Char) :=
  keywords.foldl addKeywordTokens []

/-- A candidate word list matches a text when some word regex finds a hit. -/
def textMatches (words : List (List Char)) (text : List Char) : Bool :=
  words.any (fun w => kwRegexMatch w text)

/-- `has_keyword_match` of `display_subreddit_results`: free-text keywords
are checked against title plus body (joined by a space), age keywords against
the title alone, combined by the hard-filtering branch at the end of the
function. Keywords and texts are taken as `List Char` (Python strings). -/
def has_keyword_match (current_keywords age_keywords : List (List Char))
    (title body : List Char) : Bool :=
  let full_text := title ++ [' '] ++ body
  let regular_match :=
    if current_keywords ≠ [] then
      textMatches (buildRegularWords current_keywords) full_text
    else false
  let age_match :=
    if age_keywords ≠ [] then
      textMatches (buildAgeWords age_keywords) title
    else false
  if current_keywords ≠ [] ∧ age_keywords ≠ [] then regular_match && age_match
  else if age_keywords ≠ [] ∧ current_keywords = [] then age_match
  else regular_match

/-! ## Specification-side predicate for the golf keyword (claim C2) -/

/-- The property the spec states for keyword "golf": the lowercased text
contains an occurrence of "golf" not preceded by a word character, optionally
followed by exactly one of the suffixes ing, ed, er, s, ly, ending at a word
boundary (here: end of text or a non-word character, since the preceding
character is a letter). -/
def GolfSpec (text : List Char) : Prop :=
  ∃ i suf, suf ∈ suffixOpts ∧
    ((text.map Char.toLower).drop i).take (4 + suf.length) = "golf".data ++ suf ∧
    (i = 0 ∨ isWordChar ((text.map Char.toLower).getD (i - 1) ' ') = false) ∧
    (i + 4 + suf.length = text.length ∨
      isWordChar ((text.map Char.toLower).getD (i + 4 + suf.length) ' ') = false)

/-! ## Deduplication (src/utils/data_loader.py, filter_deleted_and_deduplicate_users)

The code sorts with pandas `sort_values(..., ascending=False)` using the
default `kind='quicksort'`, which pandas documents as NOT stable: the result
is some permutation of the rows that is descending on the timestamp column,
with the relative order of equal timestamps unspecified. The sort is
therefore embedded relationally (`SortValuesDesc`), and the whole function as
a relation between its input and the outputs one of its runs can produce.
`created` abstracts the sort key (the fixed-format `created_time` string and
the numeric `created_utc` order timestamps identically).
`drop_duplicates(subset=['author'], keep='first')` keeps the first row per
author in the current order. -/

/-- A post as consumed by the deduplicator: row identity, author, timestamp. -/
structure DPost where
  id : Nat
  author : String
  created : Nat
deriving DecidableEq, Repr

/-- The contract of `sort_values(by=key, ascending=False)` with the default
unstable quicksort: `out` is a permutation of the input that is descending on
the key; how equal keys are ordered is not specified. -/
def SortValuesDesc (key : DPost → Nat) (l out : List DPost) : Prop :=
  List.Perm out l ∧ out.Pairwise (fun x y => key y ≤ key x)

/-- `drop_duplicates(subset=['author'], keep='first')`: keep the first row per
author, scanning in order with the set of seen authors. -/
def dropDupByAuthor : List DPost → List String → List DPost
  | [], _ => []
  | p :: ps, seen =>
    if p.author ∈ seen then dropDupByAuthor ps seen
    else p :: dropDupByAuthor ps (p.author :: seen)

/-- One run of `filter_deleted_and_deduplicate_users`, as a relation between
the input and the output: for some result `df_sorted` of the first
`sort_values` call, split off the `[deleted]` rows, deduplicate the
identifiable rows by author keeping the first, concatenate, and the output is
a result of re-sorting the concatenation (the second `sort_values` call).
Both sort results are constrained only by the unstable-sort contract. -/
def filter_deleted_and_deduplicate_users (df out : List DPost) : Prop :=
  ∃ df_sorted : List DPost,
    SortValuesDesc DPost.created df df_sorted ∧
    SortValuesDesc DPost.created
      (dropDupByAuthor (df_sorted.filter (fun p => !(p.author == "[deleted]"))) []
        ++ df_sorted.filter (fun p => p.author == "[deleted]"))
      out

/-! ## Title sort (src/streamlit_app.py, sort_results, mode "Title Alphabetically") -/

/-- A post as consumed by the title sort and pagination: row identity and an
optional title (`none` models a missing/NaN title). -/
structure SPost where
  id : Nat
  title : Option (List Char)
deriving DecidableEq, Repr

/-- `get_sort_key` of `sort_results`: missing titles map to the empty string;
otherwise strip, and when the title starts with a single leading bracket and
has length above 1, drop that bracket; lowercase the result. -/
def get_sort_key (title : Option (List Char)) : List Char :=
  match title with
  | none => []
  | some t0 =>
    let s := pyStrip t0
    if s.head? = some '[' ∧ 1 < s.length then pyLower (s.drop 1) else pyLower s

/-- Python string comparison (code-point lexicographic, at most). -/
def keyLe : List Char → List Char → Bool
  | [], _ => true
  | _ :: _, [] => false
  | a :: as, b :: bs =>
    if a.toNat < b.toNat then true
    else if b.toNat < a.toNat then false
    else keyLe as bs

/-- Stable ascending insertion by a string key: `p` is placed before the first
element whose key is at least `key p`. -/
def insertAscBy {α : Type} (key : α → List Char) (p : α) : List α → List α
  | [] => [p]
  | q :: qs => if keyLe (key p) (key q) then p :: q :: qs else q :: insertAscBy key p qs

/-- Stable sort, ascending by a string key (models
`sort_values('sort_key', ascending=True)`). -/
def sortAscBy {α : Type} (key : α → List Char) (l : List α) : List α :=
  l.foldr (insertAscBy key) []

/-- `sort_results` in mode "Title Alphabetically": ascending stable sort on
`get_sort_key` of the title. -/
def sort_results_title (df : List SPost) : List SPost :=
  sortAscBy (fun p => get_sort_key p.title) df

/-! ## Pagination (src/streamlit_app.py, display_subreddit_results lines 553-575) -/

/-- The clamp of `display_subreddit_results`: `max_page = max(0, (total - 1)
// posts_per_page)` with `posts_per_page = 100`, and a requested page above it
is replaced by it (Nat subtraction makes the `max(0, ...)` implicit). -/
def clampPage (total current_page : Nat) : Nat :=
  let max_page := (total - 1) / 100
  if max_page < current_page then max_page else current_page

/-- The page-slicing step of `display_subreddit_results`: page size 100, the
requested page index is clamped, and the rows `iloc[start_idx:end_idx]` of
the sorted results are displayed. -/
def display_page (posts : List SPost) (current_page : Nat) : List SPost :=
  let total := posts.length
  let cur := clampPage total current_page
  let start_idx := cur * 100
  let end_idx := min (start_idx + 100) total
  (posts.drop start_idx).take (end_idx - start_idx)

/-! ## Recency filter (src/streamlit_app.py, filter_posts_by_recency)

Datetimes are modelled as integer second counts on the proleptic Gregorian
calendar (`daysFromCivil y m d * 86400 + seconds of day`); `datetime.strptime`
with format `%Y-%m-%d %H:%M:%S` is modelled by an exact 19-character parse
with calendar validation, and `datetime.fromtimestamp` by an epoch shift
restricted to the representable year range 1..9999. -/

/-- A post as consumed by the recency filter: the two date columns, either of
which may be missing (`None`/`NaN`). -/
structure RPost where
  created_time : Option (List Char)
  created_utc : Option Int
deriving DecidableEq, Repr

/-- The value of `row.get('created_time') or row.get('created_utc')` followed
by the `pd.notna` test: the string column wins when present and truthy
(non-empty), otherwise the numeric column is used; `none` means the whole
expression is missing. -/
inductive DateField where
  | fstr (s : List Char)
  | fnum (n : Int)
deriving DecidableEq, Repr

/-- `row.get('created_time') or row.get('created_utc')` under `pd.notna`. -/
def getDateField (row : RPost) : Option DateField :=
  match row.created_time with
  | some s =>
    if s = [] then
      match row.created_utc with
      | some n => some (.fnum n)
      | none => none
    else some (.fstr s)
  | none =>
    match row.created_utc with
    | some n => some (.fnum n)
    | none => none

/-- Numeric value of a decimal digit character. -/
def digitVal (c : Char) : Option Nat :=
  if c.isDigit then some (c.toNat - 48) else none

/-- Two-digit decimal field. -/
def parse2 (a b : Char) : Option Nat :=
  match digitVal a, digitVal b with
  | some x, some y => some (x * 10 + y)
  | _, _ => none

/-- Four-digit decimal field. -/
def parse4 (a b c d : Char) : Option Nat :=
  match digitVal a, digitVal b, digitVal c, digitVal d with
  | some w, some x, some y, some z => some (w * 1000 + x * 100 + y * 10 + z)
  | _, _, _, _ => none

/-- Gregorian leap year. -/
def isLeap (y : Nat) : Bool :=
  y % 4 = 0 && (y % 100 ≠ 0 || y % 400 = 0)

/-- Days in the given month of the given year. -/
def daysInMonth (y m : Nat) : Nat :=
  if m = 2 then (if isLeap y then 29 else 28)
  else if m = 4 ∨ m = 6 ∨ m = 9 ∨ m = 11 then 30 else 31

/-- Days in all years before year `y` (proleptic Gregorian, from year 0). -/
def daysBeforeYear (y : Nat) : Nat :=
  365 * y + (y + 3) / 4 - (y + 99) / 100 + (y + 399) / 400

/-- Days in the months before month `m` of a non-leap year. -/
def daysBeforeMonth (m : Nat) : Nat :=
  [0, 0, 31, 59, 90, 120, 151, 181, 212, 243, 273, 304, 334].getD m 0

/-- Day count of a civil date on the proleptic Gregorian calendar. -/
def daysFromCivil (y m d : Nat) : Nat :=
  daysBeforeYear y + daysBeforeMonth m + (if 2 < m ∧ isLeap y then 1 else 0) + (d - 1)

/-- `datetime.strptime(s, '%Y-%m-%d %H:%M:%S')`: exact 19-character shape with
calendar-validated fields, failing with `none` instead of `ValueError`. -/
def parseCreatedTime : List Char → Option Int
  | [y1, y2, y3, y4, '-', mo1, mo2, '-', d1, d2, ' ', h1, h2, ':', mi1, mi2, ':', s1, s2] =>
    match parse4 y1 y2 y3 y4, parse2 mo1 mo2, parse2 d1 d2,
          parse2 h1 h2, parse2 mi1 mi2, parse2 s1 s2 with
    | some y, some mo, some d, some h, some mi, some sec =>
      if 1 ≤ y ∧ 1 ≤ mo ∧ mo ≤ 12 ∧ 1 ≤ d ∧ d ≤ daysInMonth y mo ∧
          h ≤ 23 ∧ mi ≤ 59 ∧ sec ≤ 59 then
        some ((daysFromCivil y mo d : Int) * 86400 + h * 3600 + mi * 60 + sec)
      else none
    | _, _, _, _, _, _ => none
  | _ => none

/-- Seconds of the civil encoding at the Unix epoch 1970-01-01 00:00:00. -/
def epochOffset : Int := (daysFromCivil 1970 1 1 : Int) * 86400

/-- `datetime.fromtimestamp(float(n))`: shift to the civil encoding, failing
with `none` outside the representable year range 1..9999. -/
def fromTimestamp (n : Int) : Option Int :=
  let v := n + epochOffset
  if (daysFromCivil 1 1 1 : Int) * 86400 ≤ v ∧ v < (daysFromCivil 10000 1 1 : Int) * 86400 then
    some v
  else none

/-- `get_post_datetime` of `filter_posts_by_recency`: parse whichever date
representation is present, `none` on any failure. -/
def get_post_datetime (row : RPost) : Option Int :=
  match getDateField row with
  | none => none
  | some (.fstr s) => parseCreatedTime s
  | some (.fnum n) => fromTimestamp n

/-- `is_within_timeframe` of `filter_posts_by_recency`: posts whose date could
not be parsed are included; otherwise compare `(now - post_date).days`
(Python floor division) against the selected window. -/
def is_within_timeframe (now : Int) (recency_filter : String) (row : RPost) : Bool :=
  match get_post_datetime row with
  | none => true
  | some d =>
    let days := (now - d).fdiv 86400
    if recency_filter = "Today" then days == 0
    else if recency_filter = "Last week" then decide (days ≤ 7)
    else if recency_filter = "Last month" then decide (days ≤ 30)
    else if recency_filter = "All time" then true
    else if recency_filter = "More than a month" then true
    else true

/-- `filter_posts_by_recency`: keep the rows within the selected window. -/
def filter_posts_by_recency (now : Int) (df : List RPost) (recency_filter : String) :
    List RPost :=
  df.filter (is_within_timeframe now recency_filter)

/-! ## Fetch pagination loop (src/utils/fetch_penpals.py, fetch_penpals_posts)

The network is abstracted as a deterministic oracle mapping a pagination
cursor and a batch-size limit to a batch (`_fetch_batch`); posts are
abstracted to identifiers. The while loop runs while fewer than `total_posts`
posts are collected and each iteration either returns or appends a non-empty
batch, so `total_posts + 1` fuel always suffices; the result also counts the
number of batch requests issued. -/

/-- One `_fetch_batch` response: the posts and the opaque `after` cursor. -/
structure BatchResp where
  posts : List Nat
  next : Option String
deriving DecidableEq, Repr

/-- The while loop of `fetch_penpals_posts`, with explicit fuel and a counter
of issued batch requests. -/
def fetchLoop (oracle : Option String → Nat → BatchResp) (total : Nat) :
    Nat → List Nat → Option String → Nat → List Nat × Nat
  | 0, acc, _, calls => (acc, calls)
  | fuel + 1, acc, after, calls =>
    if acc.length < total then
      let batch := oracle after (min (total - acc.length) 100)
      if batch.posts.isEmpty then (acc, calls + 1)
      else fetchLoop oracle total fuel (acc ++ batch.posts) batch.next (calls + 1)
    else (acc, calls)

/-- `fetch_penpals_posts`: run the pagination loop from an empty accumulator
and a null cursor, then truncate to `total_posts`. Returns the posts and the
number of batch requests issued. -/
def fetch_penpals_posts (oracle : Option String → Nat → BatchResp) (total_posts : Nat) :
    List Nat × Nat :=
  let r := fetchLoop oracle total_posts (total_posts + 1) [] none 0
  (r.1.take total_posts, r.2)

/-- A server whose every response is one post together with an exhausted
(null) cursor: the first batch already reports that no more pages exist. -/
def constOracle : Option String → Nat → BatchResp :=
  fun _ _ => ⟨[7], none⟩

/-! ## Theorems -/

/-! ### Claim C1: combination of free-text keywords and age range -/

/-- C1 counterexample: with keywords ["travel"] and age keyword "25"
(age range [25,25]), the post titled "25F travel buddy" with empty body is
rejected, contradicting the claim that it is accepted: the title contains no
standalone occurrence of "25" — the token is immediately followed by the
word character F, so the short-keyword pattern `(?<!\w)25(?!\w)` fails. -/
theorem age_and_counterexample :
    has_keyword_match ["travel".data] ["25".data] "25F travel buddy".data [] = false := by
  decide

/-- C1 (amended): when both free-text keywords and an age range are supplied,
`has_keyword_match` accepts a post if and only if the free-text candidate
words match the combined title+body and the age candidate words match the
title alone; with keywords ["travel"] and age range [25,25], the posts titled
"25F travel buddy" (empty body), "travel buddy" and "25F seeking friend" are
all rejected — the first because "25" is immediately followed by the word
character F in the title, so the age pattern finds no standalone token. -/
theorem keyword_age_and_logic :
    (∀ (ck ak : List (List Char)) (title body : List Char),
        ck ≠ [] → ak ≠ [] →
        has_keyword_match ck ak title body =
          (textMatches (buildRegularWords ck) (title ++ [' '] ++ body) &&
           textMatches (buildAgeWords ak) title))
    ∧ has_keyword_match ["travel".data] ["25".data] "25F travel buddy".data [] = false
    ∧ has_keyword_match ["travel".data] ["25".data] "travel buddy".data [] = false
    ∧ has_keyword_match ["travel".data] ["25".data] "25F seeking friend".data [] = false := by
  refine ⟨?_, by decide, by decide, by decide⟩
  intro ck ak title body hck hak
  simp [has_keyword_match, hck, hak]

/-- Closed instance of the C1 policy: both matchers gate inclusion. -/
theorem keyword_age_and_logic_witness :
    has_keyword_match ["travel".data] ["30".data] "30F hiking".data "I love to travel".data =
      (textMatches (buildRegularWords ["travel".data])
          ("30F hiking".data ++ [' '] ++ "I love to travel".data) &&
       textMatches (buildAgeWords ["30".data]) "30F hiking".data) :=
  keyword_age_and_logic.1 ["travel".data] ["30".data] "30F hiking".data
    "I love to travel".data (by decide) (by decide)

/-! ### Claim C3: the keyword "at" -/

/-- C3 counterexample: the text "at" consists exactly of the standalone token
"at", yet the match predicate rejects it, because "at" is in the stop-word
set and is removed from the derived candidate set. -/
theorem stop_word_at_counterexample :
    has_keyword_match ["at".data] [] "at".data [] = false := by
  decide

/-- C3 (amended): for the single keyword "at", the match predicate accepts no
text at all — "at" is a stop word, so the candidate word set is empty; in
particular it matches neither "at" itself nor "cat" nor "ate". -/
theorem stop_word_at_never_matches :
    ∀ title body : List Char,
      has_keyword_match ["at".data] [] title body = false := by
  intro title body
  have h : buildRegularWords ["at".data] = [] := by decide
  simp [has_keyword_match, textMatches, h]

/-! ### Claim C8: fetch pagination loop and the null cursor -/

/-- C8: against a server whose first batch already returns one post together
with an exhausted (null) cursor, requesting 2 posts issues a second batch
request (restarting from the first page, since `after` is null again) and
returns the same post twice: the loop does not stop on cursor exhaustion,
contradicting the claim that no further batch request is issued. -/
theorem fetch_null_cursor_refetches :
    fetch_penpals_posts constOracle 2 = ([7, 7], 2) := by
  decide

/-! ### Claim C9: pagination clamp -/

/-- C9: the displayed page is the one at the index clamped into
`[0, ceil(total/100) - 1]`, and for 250 posts page 5 yields the same slice as
page 2, namely rows 200-249. -/
theorem pagination_clamp :
    (∀ (posts : List SPost) (current : Nat), 1 ≤ posts.length →
        display_page posts current =
          display_page posts (min current ((posts.length + 99) / 100 - 1)))
    ∧ (∀ posts : List SPost, posts.length = 250 →
        display_page posts 5 = display_page posts 2 ∧
        display_page posts 5 = (posts.drop 200).take 50) := by
  constructor
  · intro posts current h
    have hclamp : clampPage posts.length (min current ((posts.length + 99) / 100 - 1)) =
        clampPage posts.length current := by
      simp only [clampPage]
      rcases Nat.le_total current ((posts.length + 99) / 100 - 1) with hm | hm <;>
        rw [Nat.min_def] <;> split_ifs <;> omega
    simp only [display_page, hclamp]
  · intro posts h
    have h5 : clampPage 250 5 = 2 := by decide
    have h2 : clampPage 250 2 = 2 := by decide
    constructor
    · simp only [display_page, h, h5, h2]
    · simp only [display_page, h, h5]
      norm_num

/-- Closed instance of the C9 clamp at a concrete 250-row table. -/
theorem pagination_clamp_witness :
    display_page ((List.range 250).map (fun i => (⟨i, none⟩ : SPost))) 5 =
      (((List.range 250).map (fun i => (⟨i, none⟩ : SPost))).drop 200).take 50 :=
  (pagination_clamp.2 ((List.range 250).map (fun i => (⟨i, none⟩ : SPost)))
    (by simp)).2

/-! ### Claim C10: recency filter fails open -/

/-- C10: a post whose date field cannot be parsed satisfies
`is_within_timeframe` and is kept by `filter_posts_by_recency` under every
recency filter setting. -/
theorem recency_fail_open (now : Int) (recency_filter : String) (df : List RPost)
    (p : RPost) (hmem : p ∈ df) (hbad : get_post_datetime p = none) :
    is_within_timeframe now recency_filter p = true ∧
    p ∈ filter_posts_by_recency now df recency_filter := by
  have h1 : is_within_timeframe now recency_filter p = true := by
    simp [is_within_timeframe, hbad]
  exact ⟨h1, List.mem_filter.mpr ⟨hmem, h1⟩⟩

/-- Closed instance of C10: a post dated "not-a-date" survives the "Today"
filter. -/
theorem recency_fail_open_witness :
    is_within_timeframe 0 "Today" ⟨some "not-a-date".data, none⟩ = true ∧
    (⟨some "not-a-date".data, none⟩ : RPost) ∈
      filter_posts_by_recency 0 [⟨some "not-a-date".data, none⟩] "Today" :=
  recency_fail_open 0 "Today" [⟨some "not-a-date".data, none⟩]
    ⟨some "not-a-date".data, none⟩ (by simp) (by decide)

/-! ### Claim C2: the keyword "golf" -/

/-- A prefix of shape `w ++ x` agrees with equality of the corresponding take. -/
theorem prefix_iff_take_append (w x l : List Char) :
    w ++ x <+: l ↔ l.take (w.length + x.length) = w ++ x := by
  rw [List.prefix_iff_eq_take, eq_comm, List.length_append]

/-- An occurrence of a non-empty `s` at position `i` of `t` fits inside `t`. -/
theorem take_eq_len_le (t s : List Char) (i : Nat) (hs : s ≠ [])
    (h : (t.drop i).take s.length = s) : i + s.length ≤ t.length := by
  have hs0 : 0 < s.length := List.length_pos.mpr hs
  have hl := congrArg List.length h
  simp [List.length_take, List.length_drop] at hl
  omega

/-- Characters inside an occurrence of `s` at position `i` of `t`. -/
theorem getD_of_occurrence (t s : List Char) (i j : Nat)
    (h : (t.drop i).take s.length = s) (hj : j < s.length) :
    t.getD (i + j) ' ' = s.getD j ' ' := by
  have h1 : s[j]? = t[i + j]? := by
    conv_lhs => rw [← h]
    rw [List.getElem?_take_of_lt hj, List.getElem?_drop]
  simp [List.getD_eq_getElem?_getD, h1]

/-- The last character of "golf" extended by any of the optional suffixes is a
word character. -/
theorem golf_suffix_last_word :
    ∀ suf ∈ suffixOpts,
      isWordChar (("golf".data ++ suf).getD (3 + suf.length) ' ') = true := by
  decide

/-- Below the end of the list, `wordAt` being false means the position holds a
non-word character; at the end it is always false. -/
theorem wordAt_false_iff (t : List Char) (p : Nat) (hp : p ≤ t.length) :
    wordAt t p = false ↔ (p = t.length ∨ isWordChar (t.getD p ' ') = false) := by
  unfold wordAt
  rcases Nat.lt_or_ge p t.length with h | h
  · simp [h, Nat.ne_of_lt h]
  · have he : p = t.length := Nat.le_antisymm hp h
    subst he
    simp

/-- When the character before position `p` is a word character, the boundary
test reduces to the next position not being a word character. -/
theorem boundaryB_of_word_before (t : List Char) (p : Nat) (hp0 : 0 < p)
    (hw : wordAt t (p - 1) = true) : boundaryB t p = !wordAt t p := by
  unfold boundaryB
  have h0 : (p == 0) = false := by
    simp [Nat.pos_iff_ne_zero.mp hp0]
  rw [h0]
  simp [hw]

/-- Unfolding of the search for a long keyword. -/
theorem kwRegexMatch_long_iff (w text : List Char) (hw : 4 ≤ w.length) :
    kwRegexMatch w text = true ↔
      ∃ i, i < (text.map Char.toLower).length + 1 ∧
        matchAtLong w (text.map Char.toLower) i = true := by
  unfold kwRegexMatch
  simp [List.any_eq_true, List.mem_range, hw]

/-- Unfolding of one candidate position of a long keyword. -/
theorem matchAtLong_iff (w t : List Char) (i : Nat) :
    matchAtLong w t i = true ↔
      ((i = 0 ∨ isWordChar (t.getD (i - 1) ' ') = false) ∧
       ∃ suf ∈ suffixOpts, (t.drop i).take (w.length + suf.length) = w ++ suf ∧
         boundaryB t (i + w.length + suf.length) = true) := by
  unfold matchAtLong
  simp [List.any_eq_true, Bool.not_eq_true', prefix_iff_take_append]

/-- The character just before the boundary position of a golf occurrence is a
word character. -/
theorem golf_occurrence_prev_word (t suf : List Char) (i : Nat) (hsuf : suf ∈ suffixOpts)
    (htake : (t.drop i).take (("golf".data ++ suf).length) = "golf".data ++ suf)
    (hle : i + (4 + suf.length) ≤ t.length) :
    wordAt t (i + 4 + suf.length - 1) = true := by
  have hslen : ("golf".data ++ suf).length = 4 + suf.length := by
    rw [List.length_append]; rfl
  have hj : 3 + suf.length < ("golf".data ++ suf).length := by rw [hslen]; omega
  have hg := getD_of_occurrence t ("golf".data ++ suf) i (3 + suf.length) htake hj
  have harith : i + 4 + suf.length - 1 = i + (3 + suf.length) := by omega
  have hword := golf_suffix_last_word suf hsuf
  have hlt : i + (3 + suf.length) < t.length := by omega
  simp only [wordAt, harith, hg, hword, Bool.and_true, decide_eq_true_eq]
  exact hlt

/-- C2: for the single keyword "golf" (length 4), the match/highlight regex
accepts a text if and only if the lowercased text contains an occurrence of
"golf" not preceded by a word character, optionally followed by exactly one
of the suffixes ing, ed, er, s, ly, ending at a word boundary; it matches
"golfing", "golfed", "golfer", "golfs" and "golfly", and does not match
inside "golfcart" or "mongolf". -/
theorem golf_regex_characterization :
    (∀ text : List Char, kwRegexMatch "golf".data text = true ↔ GolfSpec text)
    ∧ kwRegexMatch "golf".data "golfing".data = true
    ∧ kwRegexMatch "golf".data "golfed".data = true
    ∧ kwRegexMatch "golf".data "golfer".data = true
    ∧ kwRegexMatch "golf".data "golfs".data = true
    ∧ kwRegexMatch "golf".data "golfly".data = true
    ∧ kwRegexMatch "golf".data "golfcart".data = false
    ∧ kwRegexMatch "golf".data "mongolf".data = false := by
  refine ⟨?_, by decide, by decide, by decide, by decide, by decide, by decide, by decide⟩
  intro text
  have hw4 : ("golf".data).length = 4 := rfl
  have hnonempty : ∀ suf : List Char, "golf".data ++ suf ≠ [] := by
    intro suf h
    exact absurd (congrArg List.length h) (by simp)
  rw [kwRegexMatch_long_iff _ _ (by decide)]
  unfold GolfSpec
  constructor
  · rintro ⟨i, hi, hm⟩
    rw [matchAtLong_iff] at hm
    obtain ⟨hlb, suf, hsuf, htake, hbound⟩ := hm
    rw [hw4] at htake hbound
    set t := text.map Char.toLower with ht
    have htlen : t.length = text.length := by simp [ht]
    have hslen : ("golf".data ++ suf).length = 4 + suf.length := by
      rw [List.length_append, hw4]
    have htake' : (t.drop i).take (("golf".data ++ suf).length) = "golf".data ++ suf := by
      rw [hslen]; exact htake
    have hle : i + (4 + suf.length) ≤ t.length := by
      have h2 := take_eq_len_le t _ i (hnonempty suf) htake'
      rw [hslen] at h2; exact h2
    have hp0 : 0 < i + 4 + suf.length := by omega
    have hprev := golf_occurrence_prev_word t suf i hsuf htake' hle
    rw [boundaryB_of_word_before t _ hp0 hprev] at hbound
    have hwp : wordAt t (i + 4 + suf.length) = false := by simpa using hbound
    have hend := (wordAt_false_iff t (i + 4 + suf.length) (by omega)).mp hwp
    refine ⟨i, suf, hsuf, htake, hlb, ?_⟩
    rcases hend with h | h
    · left; omega
    · right; exact h
  · rintro ⟨i, suf, hsuf, htake, hlb, hrb⟩
    set t := text.map Char.toLower with ht
    have htlen : t.length = text.length := by simp [ht]
    have hslen : ("golf".data ++ suf).length = 4 + suf.length := by
      rw [List.length_append, hw4]
    have htake' : (t.drop i).take (("golf".data ++ suf).length) = "golf".data ++ suf := by
      rw [hslen]; exact htake
    have hle : i + (4 + suf.length) ≤ t.length := by
      have h2 := take_eq_len_le t _ i (hnonempty suf) htake'
      rw [hslen] at h2; exact h2
    refine ⟨i, by omega, ?_⟩
    rw [matchAtLong_iff]
    refine ⟨hlb, suf, hsuf, ?_, ?_⟩
    · rw [hw4]; exact htake
    · have hp0 : 0 < i + 4 + suf.length := by omega
      have hprev := golf_occurrence_prev_word t suf i hsuf htake' hle
      rw [hw4, boundaryB_of_word_before t _ hp0 hprev]
      have hwp : wordAt t (i + 4 + suf.length) = false := by
        apply (wordAt_false_iff t _ (by omega)).mpr
        rcases hrb with h | h
        · left; omega
        · right; exact h
      simp [hwp]

/-! ### Deduplication lemmas (for claims C4 and C5) -/

/-- Members of the deduplicated list come from the input and their authors
were not previously seen. -/
theorem mem_dropDupByAuthor (l : List DPost) (seen : List String) (x : DPost)
    (hx : x ∈ dropDupByAuthor l seen) : x ∈ l ∧ x.author ∉ seen := by
  induction l generalizing seen with
  | nil => simp [dropDupByAuthor] at hx
  | cons p ps ih =>
    by_cases h : p.author ∈ seen
    · rw [show dropDupByAuthor (p :: ps) seen = dropDupByAuthor ps seen from by
        simp [dropDupByAuthor, h]] at hx
      rcases ih seen hx with ⟨h1, h2⟩
      exact ⟨List.mem_cons_of_mem _ h1, h2⟩
    · rw [show dropDupByAuthor (p :: ps) seen = p :: dropDupByAuthor ps (p.author :: seen)
        from by simp [dropDupByAuthor, h]] at hx
      rcases List.mem_cons.mp hx with rfl | hx'
      · exact ⟨List.mem_cons_self _ _, h⟩
      · rcases ih _ hx' with ⟨h1, h2⟩
        refine ⟨List.mem_cons_of_mem _ h1, fun hc => h2 (List.mem_cons_of_mem _ hc)⟩

/-- Restricted to one unseen author, deduplication keeps exactly the first
matching row. -/
theorem dropDupByAuthor_filter (l : List DPost) (seen : List String) (a : String)
    (ha : a ∉ seen) :
    (dropDupByAuthor l seen).filter (fun p => p.author == a) =
      (l.filter (fun p => p.author == a)).take 1 := by
  induction l generalizing seen with
  | nil => simp [dropDupByAuthor]
  | cons p ps ih =>
    by_cases h : p.author ∈ seen
    · have hpa : (p.author == a) = false := by
        apply beq_eq_false_iff_ne.mpr
        intro he
        exact ha (he ▸ h)
      rw [show dropDupByAuthor (p :: ps) seen = dropDupByAuthor ps seen from by
        simp [dropDupByAuthor, h]]
      rw [List.filter_cons_of_neg (by simp [hpa]), ih seen ha]
    · rw [show dropDupByAuthor (p :: ps) seen = p :: dropDupByAuthor ps (p.author :: seen)
        from by simp [dropDupByAuthor, h]]
      by_cases hpa : p.author = a
      · rw [List.filter_cons_of_pos (by simp [hpa]), List.filter_cons_of_pos (by simp [hpa])]
        have hnil : (dropDupByAuthor ps (p.author :: seen)).filter
            (fun x => x.author == a) = [] := by
          apply List.filter_eq_nil_iff.mpr
          intro x hx
          rcases mem_dropDupByAuthor _ _ _ hx with ⟨_, hns⟩
          simp only [beq_iff_eq]
          intro he
          exact hns (by rw [he, ← hpa]; exact List.mem_cons_self _ _)
        rw [hnil]
        rfl
      · have hbeq : (p.author == a) = false := beq_eq_false_iff_ne.mpr hpa
        rw [List.filter_cons_of_neg (by simp [hbeq])]
        rw [ih (p.author :: seen) ?_]
        · rw [List.filter_cons_of_neg (by simp [hbeq])]
        · intro hc
          rcases List.mem_cons.mp hc with h1 | h1
          · exact hpa h1.symm
          · exact ha h1

/-- The deduplicated list has pairwise distinct authors. -/
theorem dropDupByAuthor_nodup (l : List DPost) (seen : List String) :
    ((dropDupByAuthor l seen).map DPost.author).Nodup := by
  induction l generalizing seen with
  | nil => simp [dropDupByAuthor]
  | cons p ps ih =>
    by_cases h : p.author ∈ seen
    · rw [show dropDupByAuthor (p :: ps) seen = dropDupByAuthor ps seen from by
        simp [dropDupByAuthor, h]]
      exact ih seen
    · rw [show dropDupByAuthor (p :: ps) seen = p :: dropDupByAuthor ps (p.author :: seen)
        from by simp [dropDupByAuthor, h], List.map_cons]
      refine List.nodup_cons.mpr ⟨?_, ih _⟩
      intro hc
      rcases List.mem_map.mp hc with ⟨x, hx, hax⟩
      rcases mem_dropDupByAuthor _ _ _ hx with ⟨_, hnx⟩
      exact hnx (by rw [hax]; exact List.mem_cons_self _ _)

/-- Deduplication does not change a list whose authors are already pairwise
distinct and unseen. -/
theorem dropDupByAuthor_id (l : List DPost) (seen : List String)
    (hnd : (l.map DPost.author).Nodup) (hs : ∀ x ∈ l, x.author ∉ seen) :
    dropDupByAuthor l seen = l := by
  induction l generalizing seen with
  | nil => rfl
  | cons p ps ih =>
    have hp : p.author ∉ seen := hs p (List.mem_cons_self _ _)
    rw [show dropDupByAuthor (p :: ps) seen = p :: dropDupByAuthor ps (p.author :: seen)
      from by simp [dropDupByAuthor, hp]]
    congr 1
    rw [List.map_cons, List.nodup_cons] at hnd
    obtain ⟨hh, hnd'⟩ := hnd
    apply ih _ hnd'
    intro x hx hc
    rcases List.mem_cons.mp hc with h1 | h1
    · exact hh (List.mem_map.mpr ⟨x, hx, h1⟩)
    · exact hs x (List.mem_cons_of_mem _ hx) h1

/-! ### Stable ascending sort machinery (for claims C6 and C7) -/

/-- `keyLe` is total. -/
theorem keyLe_total (a b : List Char) : keyLe a b = true ∨ keyLe b a = true := by
  induction a generalizing b with
  | nil => exact Or.inl rfl
  | cons x xs ih =>
    cases b with
    | nil => exact Or.inr rfl
    | cons y ys =>
      by_cases h1 : x.toNat < y.toNat
      · left; simp [keyLe, h1]
      · by_cases h2 : y.toNat < x.toNat
        · right; simp [keyLe, h2]
        · rcases ih ys with h | h
          · left; simp [keyLe, h1, h2, h]
          · right; simp [keyLe, h1, h2, h]

/-- `keyLe` is transitive. -/
theorem keyLe_trans (a b c : List Char) (hab : keyLe a b = true)
    (hbc : keyLe b c = true) : keyLe a c = true := by
  induction a generalizing b c with
  | nil => rfl
  | cons x xs ih =>
    cases b with
    | nil => simp [keyLe] at hab
    | cons y ys =>
      cases c with
      | nil => simp [keyLe] at hbc
      | cons z zs =>
        simp only [keyLe] at hab hbc ⊢
        split_ifs at hab hbc ⊢ <;>
          first
            | rfl
            | exact ih ys zs hab hbc
            | (exfalso; omega)

/-- An empty key is only reached from an empty key. -/
theorem keyLe_nil (a : List Char) (h : keyLe a [] = true) : a = [] := by
  cases a with
  | nil => rfl
  | cons x xs => simp [keyLe] at h

/-- Ascending insertion is a permutation with consing. -/
theorem insertAscBy_perm {α : Type} (key : α → List Char) (p : α) (l : List α) :
    List.Perm (insertAscBy key p l) (p :: l) := by
  induction l with
  | nil => exact List.Perm.refl _
  | cons q qs ih =>
    by_cases h : keyLe (key p) (key q)
    · simp [insertAscBy, h]
    · simp only [insertAscBy, if_neg h]
      exact (List.Perm.cons q ih).trans (List.Perm.swap p q qs)

/-- The ascending sort permutes the input. -/
theorem sortAscBy_perm {α : Type} (key : α → List Char) (l : List α) :
    List.Perm (sortAscBy key l) l := by
  induction l with
  | nil => exact List.Perm.refl _
  | cons p ps ih => exact (insertAscBy_perm key p _).trans (List.Perm.cons p ih)

/-- Ascending insertion preserves sortedness. -/
theorem insertAscBy_sorted {α : Type} (key : α → List Char) (p : α) (l : List α)
    (hl : l.Pairwise (fun x y => keyLe (key x) (key y) = true)) :
    (insertAscBy key p l).Pairwise (fun x y => keyLe (key x) (key y) = true) := by
  induction l with
  | nil => simp [insertAscBy]
  | cons q qs ih =>
    rcases List.pairwise_cons.mp hl with ⟨hq, hqs⟩
    by_cases h : keyLe (key p) (key q)
    · simp only [insertAscBy, if_pos h]
      refine List.pairwise_cons.mpr ⟨?_, hl⟩
      intro x hx
      rcases List.mem_cons.mp hx with rfl | hx'
      · exact h
      · exact keyLe_trans _ _ _ h (hq x hx')
    · simp only [insertAscBy, if_neg h]
      refine List.pairwise_cons.mpr ⟨?_, ih hqs⟩
      intro x hx
      have hx2 : x = p ∨ x ∈ qs := by
        have := (insertAscBy_perm key p qs).mem_iff.mp hx
        simpa using this
      rcases hx2 with hxp | hx'
      · rw [hxp]
        rcases keyLe_total (key p) (key q) with h' | h'
        · exact absurd h' h
        · exact h'
      · exact hq x hx'

/-- The ascending sort output is sorted by `keyLe` on the keys. -/
theorem sortAscBy_sorted {α : Type} (key : α → List Char) (l : List α) :
    (sortAscBy key l).Pairwise (fun x y => keyLe (key x) (key y) = true) := by
  induction l with
  | nil => simp [sortAscBy]
  | cons p ps ih => exact insertAscBy_sorted key p _ ih

/-! ### Claim C6: bracket-skipping title sort -/

/-- C6 counterexample: with titles "Apple seeks friend" and "[25F] hello", the
sorted order puts the bracketed title first — its key is "25f] hello", whose
first character 2 precedes the letter a in code-point order — contradicting
the claimed order [Apple seeks friend, [25F] hello]. -/
theorem title_sort_counterexample :
    sort_results_title
        [⟨1, some "Apple seeks friend".data⟩, ⟨0, some "[25F] hello".data⟩] =
      [⟨0, some "[25F] hello".data⟩, ⟨1, some "Apple seeks friend".data⟩] ∧
    sort_results_title
        [⟨1, some "Apple seeks friend".data⟩, ⟨0, some "[25F] hello".data⟩] ≠
      [⟨1, some "Apple seeks friend".data⟩, ⟨0, some "[25F] hello".data⟩] := by
  constructor <;> decide

/-- C6 (amended): sorting by title orders posts ascending, case-insensitively,
on the key obtained by stripping a single leading bracket from the title (the
output is sorted by the key order and is a permutation of the input); for the
two titles "[25F] hello" and "Apple seeks friend" the sorted order is
["[25F] hello", "Apple seeks friend"], because the stripped key "25f] hello"
starts with the digit 2, which precedes the letter a. -/
theorem title_sort_orders :
    (∀ df : List SPost,
        (sort_results_title df).Pairwise
          (fun p q => keyLe (get_sort_key p.title) (get_sort_key q.title) = true) ∧
        List.Perm (sort_results_title df) df)
    ∧ sort_results_title
        [⟨1, some "Apple seeks friend".data⟩, ⟨0, some "[25F] hello".data⟩] =
      [⟨0, some "[25F] hello".data⟩, ⟨1, some "Apple seeks friend".data⟩]
    ∧ sort_results_title
        [⟨0, some "[25F] hello".data⟩, ⟨1, some "Apple seeks friend".data⟩] =
      [⟨0, some "[25F] hello".data⟩, ⟨1, some "Apple seeks friend".data⟩] := by
  refine ⟨fun df => ⟨?_, ?_⟩, by decide, by decide⟩
  · exact sortAscBy_sorted (fun p => get_sort_key p.title) df
  · exact sortAscBy_perm (fun p => get_sort_key p.title) df

/-! ### Claim C7: posts with missing titles -/

/-- C7 counterexample: a post with a missing title sorts before a post titled
"Apple", not after it — the missing title maps to the empty sort key, the
minimum of the key order. -/
theorem missing_title_counterexample :
    sort_results_title [⟨0, some "Apple".data⟩, ⟨1, none⟩] =
      [⟨1, none⟩, ⟨0, some "Apple".data⟩] ∧
    sort_results_title [⟨0, some "Apple".data⟩, ⟨1, none⟩] ≠
      [⟨0, some "Apple".data⟩, ⟨1, none⟩] := by
  constructor <;> decide

/-- C7 (amended): under title-alphabetical sort, every post with a missing
title appears before all posts whose sort key is non-empty: in the sorted
output, any post preceding a missing-title post itself has the empty sort
key, so the missing-title posts form a leading block (they sort first, not
last). -/
theorem missing_titles_sort_first :
    (∀ df : List SPost,
        (sort_results_title df).Pairwise
          (fun p q => q.title = none → get_sort_key p.title = []))
    ∧ sort_results_title [⟨0, some "Apple".data⟩, ⟨1, none⟩] =
      [⟨1, none⟩, ⟨0, some "Apple".data⟩] := by
  refine ⟨fun df => ?_, by decide⟩
  have hs := sortAscBy_sorted (fun p : SPost => get_sort_key p.title) df
  refine List.Pairwise.imp ?_ hs
  intro a b hab hbn
  have hb : get_sort_key b.title = [] := by rw [hbn]; rfl
  rw [hb] at hab
  exact keyLe_nil _ hab

/-! ### Fuel adequacy of the fetch-loop embedding -/

/-- The explicit fuel does not affect the loop: any fuel exceeding the number
of posts still to collect yields the same result, since every iteration
either returns or appends a non-empty batch. In particular the
`total_posts + 1` fuel used by `fetch_penpals_posts` is always sufficient. -/
theorem fetchLoop_fuel_irrelevant (oracle : Option String → Nat → BatchResp) (total : Nat) :
    ∀ (fuel₁ fuel₂ : Nat) (acc : List Nat) (after : Option String) (calls : Nat),
      total - acc.length < fuel₁ → total - acc.length < fuel₂ →
      fetchLoop oracle total fuel₁ acc after calls =
        fetchLoop oracle total fuel₂ acc after calls := by
  intro fuel₁
  induction fuel₁ with
  | zero =>
    intro fuel₂ acc after calls h1 _
    omega
  | succ f ih =>
    intro fuel₂ acc after calls h1 h2
    cases fuel₂ with
    | zero => omega
    | succ g =>
      simp only [fetchLoop]
      by_cases hlen : acc.length < total
      · rw [if_pos hlen, if_pos hlen]
        cases hb : (oracle after (min (total - acc.length) 100)).posts.isEmpty
        · simp only [hb, Bool.false_eq_true, if_false]
          have hne : (oracle after (min (total - acc.length) 100)).posts ≠ [] :=
            List.isEmpty_eq_false.mp hb
          have hpos : 0 < (oracle after (min (total - acc.length) 100)).posts.length :=
            List.length_pos.mpr hne
          have hgrow : acc.length <
              (acc ++ (oracle after (min (total - acc.length) 100)).posts).length := by
            rw [List.length_append]
            omega
          apply ih
          · omega
          · omega
        · simp [hb]
      · rw [if_neg hlen, if_neg hlen]

/-- The concatenation built inside `filter_deleted_and_deduplicate_users`,
restricted to one non-anonymized author, is the first matching row of the
sort result. -/
theorem concat_filter_author (s : List DPost) (a : String) (ha : a ≠ "[deleted]") :
    ((dropDupByAuthor (s.filter (fun p => !(p.author == "[deleted]"))) []
      ++ s.filter (fun p => p.author == "[deleted]")).filter
      (fun p => p.author == a)) =
    (s.filter (fun p => p.author == a)).take 1 := by
  rw [List.filter_append]
  have hdel : ((s.filter (fun p => p.author == "[deleted]")).filter
      (fun p => p.author == a)) = [] := by
    apply List.filter_eq_nil_iff.mpr
    intro x hx
    have hxd : x.author = "[deleted]" := by
      have h2 := (List.mem_filter.mp hx).2
      simpa using h2
    simp [hxd, Ne.symm ha]
  rw [hdel, List.append_nil, dropDupByAuthor_filter _ [] a (by simp)]
  congr 1
  rw [List.filter_filter]
  apply List.filter_congr
  intro x hx
  cases hxa : (x.author == a) with
  | true =>
    have hxa2 : x.author = a := by simpa using hxa
    simp [hxa2, ha]
  | false => simp [hxa]

/-- The concatenation built inside `filter_deleted_and_deduplicate_users`,
restricted to the anonymized author, is the `[deleted]` part of the sort
result. -/
theorem concat_filter_deleted (s : List DPost) :
    ((dropDupByAuthor (s.filter (fun p => !(p.author == "[deleted]"))) []
      ++ s.filter (fun p => p.author == "[deleted]")).filter
      (fun p => p.author == "[deleted]")) =
    s.filter (fun p => p.author == "[deleted]") := by
  rw [List.filter_append]
  have h1 : ((dropDupByAuthor (s.filter (fun p => !(p.author == "[deleted]"))) []).filter
      (fun p => p.author == "[deleted]")) = [] := by
    apply List.filter_eq_nil_iff.mpr
    intro x hx
    rcases mem_dropDupByAuthor _ _ _ hx with ⟨hxm, _⟩
    have h2 := (List.mem_filter.mp hxm).2
    simp at h2 ⊢
    exact h2
  have h2 : ((s.filter (fun p => p.author == "[deleted]")).filter
      (fun p => p.author == "[deleted]")) =
      s.filter (fun p => p.author == "[deleted]") := by
    apply List.filter_eq_self.mpr
    intro x hx
    exact (List.mem_filter.mp hx).2
  rw [h1, h2, List.nil_append]

/-- The concatenation built inside `filter_deleted_and_deduplicate_users`,
restricted to non-anonymized authors, is its deduplicated part. -/
theorem concat_filter_ident (s : List DPost) :
    ((dropDupByAuthor (s.filter (fun p => !(p.author == "[deleted]"))) []
      ++ s.filter (fun p => p.author == "[deleted]")).filter
      (fun p => !(p.author == "[deleted]"))) =
    dropDupByAuthor (s.filter (fun p => !(p.author == "[deleted]"))) [] := by
  rw [List.filter_append]
  have h1 : ((dropDupByAuthor (s.filter (fun p => !(p.author == "[deleted]"))) []).filter
      (fun p => !(p.author == "[deleted]"))) =
      dropDupByAuthor (s.filter (fun p => !(p.author == "[deleted]"))) [] := by
    apply List.filter_eq_self.mpr
    intro x hx
    rcases mem_dropDupByAuthor _ _ _ hx with ⟨hxm, _⟩
    exact (List.mem_filter.mp hxm).2
  have h2 : ((s.filter (fun p => p.author == "[deleted]")).filter
      (fun p => !(p.author == "[deleted]"))) = [] := by
    apply List.filter_eq_nil_iff.mpr
    intro x hx
    have hxd := (List.mem_filter.mp hx).2
    simp [hxd]
  rw [h1, h2, List.append_nil]

/-! ### Claim C4: deduplication correctness -/

/-- C4 counterexample: on two posts by the same author with equal timestamps,
a run of `filter_deleted_and_deduplicate_users` whose (unstable) sort returns
the rows in reversed order — equally valid under the sort contract — keeps
the post with id 1, not the first-in-input post with id 0: the code does not
guarantee that ties are broken by input order. -/
theorem dedup_tie_counterexample :
    filter_deleted_and_deduplicate_users
      [⟨0, "alice", 5⟩, ⟨1, "alice", 5⟩] [⟨1, "alice", 5⟩] ∧
    ([(⟨1, "alice", 5⟩ : DPost)] ≠ [⟨0, "alice", 5⟩]) := by
  refine ⟨⟨[⟨1, "alice", 5⟩, ⟨0, "alice", 5⟩],
    ⟨by decide, by decide⟩, by decide, by decide⟩, by decide⟩

/-- C4 (amended): for every run of `filter_deleted_and_deduplicate_users` —
whatever tie order the unstable `sort_values` produces — the output keeps,
for each non-anonymized author occurring in the input, exactly one post, and
that post has maximal `created` among the author's posts (which of several
tied maximal posts survives is not determined); authors not occurring do not
appear; every `[deleted]` post survives (the deleted rows of the output are a
permutation of those of the input); and the output is sorted by `created`
descending. -/
theorem dedup_correct (df out : List DPost)
    (hrun : filter_deleted_and_deduplicate_users df out) :
    (∀ a : String, a ≠ "[deleted]" →
      (df.filter (fun p => p.author == a) = [] →
        out.filter (fun p => p.author == a) = []) ∧
      (df.filter (fun p => p.author == a) ≠ [] →
        ∃ p, out.filter (fun q => q.author == a) = [p] ∧
          p ∈ df.filter (fun q => q.author == a) ∧
          ∀ x ∈ df.filter (fun q => q.author == a), x.created ≤ p.created))
    ∧ List.Perm (out.filter (fun p => p.author == "[deleted]"))
        (df.filter (fun p => p.author == "[deleted]"))
    ∧ out.Pairwise (fun p q => q.created ≤ p.created) := by
  obtain ⟨s, ⟨hsperm, hssort⟩, hoperm, hosort⟩ := hrun
  refine ⟨?_, ?_, hosort⟩
  · intro a ha
    have hfilter := hoperm.filter (fun p => p.author == a)
    rw [concat_filter_author s a ha] at hfilter
    have hsa_perm : List.Perm (s.filter (fun p => p.author == a))
        (df.filter (fun p => p.author == a)) := hsperm.filter _
    constructor
    · intro hdf
      rw [hdf] at hsa_perm
      have hnil : s.filter (fun p => p.author == a) = [] := hsa_perm.eq_nil
      rw [hnil] at hfilter
      exact hfilter.eq_nil
    · intro hdf
      have hne : s.filter (fun p => p.author == a) ≠ [] := by
        intro h0
        rw [h0] at hsa_perm
        exact hdf hsa_perm.symm.eq_nil
      cases hsa : s.filter (fun p => p.author == a) with
      | nil => exact absurd hsa hne
      | cons p rest =>
        refine ⟨p, ?_, ?_, ?_⟩
        · rw [hsa] at hfilter
          have hsing : List.Perm (out.filter (fun q => q.author == a)) [p] := by
            simpa using hfilter
          exact List.perm_singleton.mp hsing
        · have hp_mem : p ∈ s.filter (fun q => q.author == a) := by
            rw [hsa]
            exact List.mem_cons_self _ _
          exact hsa_perm.mem_iff.mp hp_mem
        · intro x hx
          have hx_s : x ∈ s.filter (fun q => q.author == a) := hsa_perm.mem_iff.mpr hx
          rw [hsa] at hx_s
          rcases List.mem_cons.mp hx_s with rfl | hx_rest
          · exact Nat.le_refl _
          · have hsorted : (s.filter (fun q => q.author == a)).Pairwise
                (fun x y => y.created ≤ x.created) :=
              List.Pairwise.sublist (List.filter_sublist s) hssort
            rw [hsa] at hsorted
            exact (List.pairwise_cons.mp hsorted).1 x hx_rest
  · have hfilter := hoperm.filter (fun p => p.author == "[deleted]")
    rw [concat_filter_deleted s] at hfilter
    exact hfilter.trans (hsperm.filter _)

/-- Closed instance of C4: of the two alice posts the later one survives. -/
theorem dedup_correct_witness :
    ∃ p, (([⟨2, "alice", 30⟩] : List DPost)).filter (fun q => q.author == "alice") = [p] ∧
      p ∈ ([⟨0, "alice", 10⟩, ⟨2, "alice", 30⟩] : List DPost).filter
        (fun q => q.author == "alice") ∧
      ∀ x ∈ ([⟨0, "alice", 10⟩, ⟨2, "alice", 30⟩] : List DPost).filter
        (fun q => q.author == "alice"), x.created ≤ p.created :=
  ((dedup_correct [⟨0, "alice", 10⟩, ⟨2, "alice", 30⟩] [⟨2, "alice", 30⟩]
      ⟨[⟨2, "alice", 30⟩, ⟨0, "alice", 10⟩], ⟨by decide, by decide⟩,
        by decide, by decide⟩).1
    "alice" (by decide)).2 (by decide)

/-! ### Claim C5: deduplication idempotence -/

/-- C5 counterexample: [⟨0, alice, 5⟩, ⟨1, bob, 5⟩] is a possible output of
`filter_deleted_and_deduplicate_users` (first conjunct), yet a run of the
function on that output whose (unstable) re-sort swaps the two equal
timestamps — equally valid under the sort contract — returns the reversed
sequence (second conjunct), which differs from the input sequence: the code
does not guarantee that re-applying deduplication reproduces the exact same
sequence. -/
theorem dedup_idem_counterexample :
    filter_deleted_and_deduplicate_users
      [⟨0, "alice", 5⟩, ⟨1, "bob", 5⟩] [⟨0, "alice", 5⟩, ⟨1, "bob", 5⟩] ∧
    filter_deleted_and_deduplicate_users
      [⟨0, "alice", 5⟩, ⟨1, "bob", 5⟩] [⟨1, "bob", 5⟩, ⟨0, "alice", 5⟩] ∧
    ([⟨1, "bob", 5⟩, ⟨0, "alice", 5⟩] : List DPost) ≠ [⟨0, "alice", 5⟩, ⟨1, "bob", 5⟩] := by
  refine ⟨⟨[⟨0, "alice", 5⟩, ⟨1, "bob", 5⟩], ⟨by decide, by decide⟩, by decide, by decide⟩,
    ⟨[⟨1, "bob", 5⟩, ⟨0, "alice", 5⟩], ⟨by decide, by decide⟩, by decide, by decide⟩,
    by decide⟩

/-- C5 (amended): re-applying `filter_deleted_and_deduplicate_users` to any
of its own outputs returns the same posts — the second output is a
permutation of the first (equal as multisets: nothing further is removed) —
again sorted by `created` descending; the exact sequence is reproduced only
up to reordering of posts with equal timestamps, which the unstable sort
leaves unspecified. -/
theorem dedup_idempotent (df out out₂ : List DPost)
    (h1 : filter_deleted_and_deduplicate_users df out)
    (h2 : filter_deleted_and_deduplicate_users out out₂) :
    List.Perm out₂ out ∧ out₂.Pairwise (fun p q => q.created ≤ p.created) := by
  obtain ⟨s, ⟨hsperm, hssort⟩, hoperm, hosort⟩ := h1
  obtain ⟨s₂, ⟨hs2perm, hs2sort⟩, ho2perm, ho2sort⟩ := h2
  refine ⟨?_, ho2sort⟩
  have hident_out : List.Perm (out.filter (fun p => !(p.author == "[deleted]")))
      (dropDupByAuthor (s.filter (fun p => !(p.author == "[deleted]"))) []) := by
    have h := hoperm.filter (fun p => !(p.author == "[deleted]"))
    rw [concat_filter_ident s] at h
    exact h
  have hnodup_out : ((out.filter (fun p => !(p.author == "[deleted]"))).map
      DPost.author).Nodup :=
    ((hident_out.map DPost.author).nodup_iff).mpr (dropDupByAuthor_nodup _ _)
  have hnodup_s2 : ((s₂.filter (fun p => !(p.author == "[deleted]"))).map
      DPost.author).Nodup := by
    have h := (hs2perm.filter (fun p => !(p.author == "[deleted]"))).map DPost.author
    exact h.nodup_iff.mpr hnodup_out
  have hid : dropDupByAuthor (s₂.filter (fun p => !(p.author == "[deleted]"))) [] =
      s₂.filter (fun p => !(p.author == "[deleted]")) :=
    dropDupByAuthor_id _ _ hnodup_s2 (fun x _ => List.not_mem_nil x.author)
  have hpart : List.Perm
      (dropDupByAuthor (s₂.filter (fun p => !(p.author == "[deleted]"))) []
        ++ s₂.filter (fun p => p.author == "[deleted]")) s₂ := by
    rw [hid]
    have hcongr : s₂.filter (fun p => p.author == "[deleted]") =
        s₂.filter (fun p => !(!(p.author == "[deleted]"))) := by
      apply List.filter_congr
      intro x _
      simp
    rw [hcongr]
    exact List.filter_append_perm _ s₂
  exact (ho2perm.trans hpart).trans hs2perm

/-- Closed instance of C5: the permuted second output carries the same posts,
sorted. -/
theorem dedup_idempotent_witness :
    List.Perm ([⟨1, "bob", 5⟩, ⟨0, "alice", 5⟩] : List DPost)
      [⟨0, "alice", 5⟩, ⟨1, "bob", 5⟩] ∧
    ([⟨1, "bob", 5⟩, ⟨0, "alice", 5⟩] : List DPost).Pairwise
      (fun p q => q.created ≤ p.created) :=
  dedup_idempotent [⟨0, "alice", 5⟩, ⟨1, "bob", 5⟩] [⟨0, "alice", 5⟩, ⟨1, "bob", 5⟩]
    [⟨1, "bob", 5⟩, ⟨0, "alice", 5⟩]
    ⟨[⟨0, "alice", 5⟩, ⟨1, "bob", 5⟩], ⟨by decide, by decide⟩, by decide, by decide⟩
    ⟨[⟨1, "bob", 5⟩, ⟨0, "alice", 5⟩], ⟨by decide, by decide⟩, by decide, by decide⟩
